import Mathlib

/-!
Verification of the documentation-compliance migration engine
(`doc-compliance-registry-integration.py`, class `EnhancedDocCompliance`).

Shallow embedding conventions:
* Python strings are `List Char` (`Str`), Python `str.lower` is ASCII
  `Char.toLower` (all paths and names in scope are ASCII).
* The filesystem is a map from path to file content
  (`FS := Str → Option Str`); `shutil.copy2` / `shutil.move` copy the
  content byte-for-byte, so backup identity is content equality.
* External effects are oracles passed as parameters: the enforcer's
  `detect_document_type` / `get_correct_path`, the timestamp, the error
  message of a failed read (`str(e)`), per-item interactive answers
  (`respond`, already lowercased like the script's `.lower()`), and
  injected I/O failures for copies and moves.
* Confidence is the integer 0-100 of the classifier contract, so it is a
  `Nat`.  The float comparison `sum(...) / max(...) > 0.7` is modelled by
  the exact integer inequality `7 * max < 10 * sum`; for name lengths far
  below 2^49 the two are equal (the quotient and the literal `0.7` round
  to distinguishable doubles whenever the exact comparison is strict).
* Uncaught Python exceptions inside the migration loops are modelled by a
  `crashed` flag on the execution state (they are caught, if at all, only
  by `execute_migration`'s outer `try`); statistics printing is modelled
  only for the counters and error logs the specification talks about.
-/

/-- Python strings, embedded as character lists. -/
abbrev Str := List Char

/-- The filesystem: a map from absolute path to file content. -/
def FS := Str → Option Str

/-- Read a file (`open(path).read()`); `none` models a raised `IOError`. -/
def fsRead (fs : FS) (p : Str) : Option Str := fs p

/-- Write (create or overwrite) a file in full. -/
def fsWrite (fs : FS) (p : Str) (c : Str) : FS :=
  fun q => if q = p then some c else fs q

/-- Remove a file. -/
def fsErase (fs : FS) (p : Str) : FS :=
  fun q => if q = p then none else fs q

/-- Lowercase a string, `str.lower()` on the ASCII names in scope. -/
def lowerS (s : Str) : Str := s.map Char.toLower

/-- Final path component: `os.path.basename` (everything after the last slash). -/
def basenameS (p : Str) : Str := (p.reverse.takeWhile (fun c => c ≠ '/')).reverse

/-- Path join with a relative right operand, `os.path.join backup rel`. -/
def joinS (a b : Str) : Str := a ++ ['/'] ++ b

/-- Relative path `os.path.relpath p root` for the reachable case where `p`
lies below `root`; other inputs are returned unchanged (the scanner only
produces paths below the project root). -/
def relpathS (root p : Str) : Str :=
  if (root ++ ['/']).isPrefixOf p then p.drop (root.length + 1) else p

/-- Python substring test `pat in s`: `pat` occurs contiguously in `s`. -/
def isSubOf (pat s : Str) : Bool :=
  (List.range (s.length + 1)).any (fun i => pat.isPrefixOf (s.drop i))

/-- Remove every non-overlapping occurrence of the substring `".md"`,
scanning left to right: `name.replace(".md", "")`. -/
def removeMd : Str → Str
  | '.' :: 'm' :: 'd' :: rest => removeMd rest
  | c :: rest => c :: removeMd rest
  | [] => []

/-- Fuelled global substitution; `replaceAll` below supplies enough fuel.
With a nonempty pattern this is `content.replace(old, new)`: scan left to
right, replacing each non-overlapping occurrence and resuming after the
replacement text (the callers always pass nonempty basenames). -/
def replaceAllF (pat repl : Str) : Nat → Str → Str
  | _, [] => []
  | 0, s => s
  | Nat.succ n, c :: rest =>
    if pat ≠ [] ∧ pat.isPrefixOf (c :: rest) then
      repl ++ replaceAllF pat repl n ((c :: rest).drop pat.length)
    else c :: replaceAllF pat repl n rest

/-- Python `content.replace(pat, repl)` for nonempty `pat`. -/
def replaceAll (pat repl s : Str) : Str := replaceAllF pat repl s.length s

/-- The successful analysis record built by `analyze_document`
(the `DocumentAnalysis` of the data model). -/
structure DocAnalysis where
  path : Str
  doc_type : Str
  confidence : Nat
  correct_path : Option Str
  needs_move : Bool
  content_length : Nat
  creation_date : Str
deriving DecidableEq

/-- A document analysis: either the degenerate record returned when the
read raised (`{'path', 'error', 'doc_type': 'error', 'confidence': 0}`,
which lacks the `needs_move` and `correct_path` keys), or a full record. -/
inductive Analysis where
  | err (path : Str) (errMsg : Str)
  | ok (d : DocAnalysis)
deriving DecidableEq

/-- The `'path'` entry, present in both record shapes. -/
def Analysis.path : Analysis → Str
  | .err p _ => p
  | .ok d => d.path

/-- The `'doc_type'` entry: `"error"` for a failed read. -/
def Analysis.docType : Analysis → Str
  | .err _ _ => "error".data
  | .ok d => d.doc_type

/-- The `'confidence'` entry: `0` for a failed read. -/
def Analysis.conf : Analysis → Nat
  | .err _ _ => 0
  | .ok d => d.confidence

/-- The value of `analysis.get('error')`. -/
def Analysis.getError : Analysis → Option Str
  | .err _ m => some m
  | .ok _ => none

/-- The `'correct_path'` entry where it exists; the error record has no
such key, but every consumer that reads it is only ever handed bucketed
(hence full) records, so the default `none` is unreachable there. -/
def Analysis.correctPathD : Analysis → Option Str
  | .err _ _ => none
  | .ok d => d.correct_path

/-- A duplicate group: `{'type', 'documents', 'similarity'}` with the two
documents stored in encounter order. -/
structure DupGroup where
  type : Str
  documents : List Analysis
  similarity : Str
deriving DecidableEq

/-- A planned reference rewrite:
`{'file', 'old_ref', 'new_ref', 'old_name'}`. -/
structure RefEdit where
  file : Str
  old_ref : Str
  new_ref : Option Str
  old_name : Str
deriving DecidableEq

/-- The migration plan with its five sequences. -/
structure MigrationPlan where
  auto_moves : List Analysis
  suggested_moves : List Analysis
  manual_review : List Analysis
  duplicates : List DupGroup
  broken_refs : List RefEdit
deriving DecidableEq

/-- The run counters and error log the claims talk about (`self.stats`;
the log models the error lines printed with the offending path). -/
structure Stats where
  moved : Nat
  renamed : Nat
  references_updated : Nat
  log : List Str
deriving DecidableEq

/-- `stats['scanned'] = len(documents)` in `scan_all_documents`. -/
def statsScanned (documents : List Str) : Nat := documents.length

/-- Embedding of `analyze_document`: read the file (a failure yields the
degenerate record carrying `str(e)` from the `errMsg` oracle), classify
with the enforcer oracle `detect`, resolve the canonical path only for a
confident non-uncertain type, and derive `needs_move` with Python
truthiness (`correct_path != doc_path if correct_path else False`). -/
def analyzeDocument (fs : FS) (errMsg : Str → Str) (ctime : Str → Str)
    (detect : Str → Str → Str × Nat)
    (getCorrectPath : Str → Str → Str → Option Str) (path : Str) : Analysis :=
  match fsRead fs path with
  | none => .err path (errMsg path)
  | some content =>
    let dc := detect path content
    let correct_path : Option Str :=
      if dc.1 ≠ "uncertain".data ∧ 50 ≤ dc.2 then getCorrectPath dc.1 path content
      else none
    .ok { path := path
          doc_type := dc.1
          confidence := dc.2
          correct_path := correct_path
          needs_move := match correct_path with
            | none => false
            | some cp => if cp = [] then false else decide (cp ≠ path)
          content_length := content.length
          creation_date := ctime path }

/-- The confidence-bucketing loop of `build_migration_plan`: skip records
whose `'error'` value is truthy, raise `KeyError` on an error record with
an empty message (it has no `'needs_move'` key), skip records not needing
a move, and append to auto (`>=90`), suggested (`>=70`), or manual review
in encounter order. -/
def bucketGo : List Analysis → Except Str (List Analysis × List Analysis × List Analysis)
  | [] => .ok ([], [], [])
  | a :: rest =>
    match a with
    | .err _ m =>
      if m = [] then .error "KeyError: needs_move".data
      else bucketGo rest
    | .ok d =>
      match bucketGo rest with
      | .error e => .error e
      | .ok (af, sf, mf) =>
        if d.needs_move = false then .ok (af, sf, mf)
        else if 90 ≤ d.confidence then .ok (.ok d :: af, sf, mf)
        else if 70 ≤ d.confidence then .ok (af, .ok d :: sf, mf)
        else .ok (af, sf, .ok d :: mf)

/-- Embedding of `names_are_similar`: strip `".md"` occurrences and the
separators, then substring containment either way, or (length difference
at most 2 and aligned-character ratio strictly above 0.7, taken over the
longer cleaned name).  The zip aligns characters position by position. -/
def namesAreSimilar (name1 name2 : Str) : Bool :=
  let clean1 := ((removeMd name1).filter (fun c => c ≠ '-')).filter (fun c => c ≠ '_')
  let clean2 := ((removeMd name2).filter (fun c => c ≠ '-')).filter (fun c => c ≠ '_')
  isSubOf clean1 clean2 || isSubOf clean2 clean1 ||
    (decide (Nat.dist clean1.length clean2.length ≤ 2) &&
     decide (7 * max clean1.length clean2.length <
             10 * ((clean1.zip clean2).filter (fun p => p.1 = p.2)).length))

/-- The similarity verdict as `find_duplicates` applies it to two raw
basenames: both are lowercased first. -/
def similarVerdict (n1 n2 : Str) : Bool :=
  namesAreSimilar (lowerS n1) (lowerS n2)

/-- Append `a` to the group of key `k`, or open a new group at the end:
`defaultdict(list)` access followed by `append`, preserving insertion
order of the keys. -/
def addToGroups (gs : List (Str × List Analysis)) (k : Str) (a : Analysis) :
    List (Str × List Analysis) :=
  if gs.any (fun g => g.1 = k) then
    gs.map (fun g => if g.1 = k then (g.1, g.2 ++ [a]) else g)
  else gs ++ [(k, [a])]

/-- Group the analyses by `'doc_type'`, keeping only truthy types other
than `"uncertain"` (the error record contributes its type `"error"`). -/
def groupByType (analyses : List Analysis) : List (Str × List Analysis) :=
  analyses.foldl
    (fun gs a =>
      if a.docType ≠ [] ∧ a.docType ≠ "uncertain".data then addToGroups gs a.docType a
      else gs) []

/-- All ordered pairs `(docs[i], docs[j])` with `i < j`, in loop order. -/
def pairsOf : List α → List (α × α)
  | [] => []
  | x :: xs => xs.map (fun y => (x, y)) ++ pairsOf xs

/-- The inner pair loop of `find_duplicates` for one type group: for each
pair with similar lowercased basenames build the group record and append
it unless an equal record is already present. -/
def addGroupsForType (t : Str) (docs : List Analysis) (acc : List DupGroup) :
    List DupGroup :=
  (pairsOf docs).foldl
    (fun acc2 pr =>
      if namesAreSimilar (lowerS (basenameS pr.1.path)) (lowerS (basenameS pr.2.path)) then
        let g : DupGroup := ⟨t, [pr.1, pr.2], "filename".data⟩
        if g ∈ acc2 then acc2 else acc2 ++ [g]
      else acc2) acc

/-- Embedding of `find_duplicates`: group by type, skip singleton groups,
then run the pair loop, accumulating into the single `duplicates` list. -/
def findDuplicates (analyses : List Analysis) : List DupGroup :=
  (groupByType analyses).foldl
    (fun acc tg => if tg.2.length < 2 then acc else addGroupsForType tg.1 tg.2 acc) []

/-- Python `dict` insertion: an existing key keeps its position and gets
the new value, a new key is appended. -/
def dictInsert (m : List (Str × Option Str)) (k : Str) (v : Option Str) :
    List (Str × Option Str) :=
  if m.any (fun p => p.1 = k) then m.map (fun p => if p.1 = k then (k, v) else p)
  else m ++ [(k, v)]

/-- The `move_map` of `find_broken_references`: current path to planned
path for the auto and suggested buckets, in bucket order. -/
def buildMoveMap (pending : List Analysis) : List (Str × Option Str) :=
  pending.foldl (fun m a => dictInsert m a.path a.correctPathD) []

/-- The reference edits one analyzed document contributes: none when its
read raises, otherwise one edit per move-map entry whose basename or full
old path occurs in the content, in move-map order. -/
def refEditsFor (mm : List (Str × Option Str)) (fs : FS) (a : Analysis) :
    List RefEdit :=
  match fsRead fs a.path with
  | none => []
  | some content =>
    mm.filterMap (fun om =>
      let old_name := basenameS om.1
      if isSubOf old_name content || isSubOf om.1 content then
        some { file := a.path, old_ref := om.1, new_ref := om.2, old_name := old_name }
      else none)

/-- Embedding of `find_broken_references`: build the move map, return
nothing when it is empty, otherwise scan every analyzed document. -/
def findBrokenRefs (fs : FS) (pending : List Analysis) (analyses : List Analysis) :
    List RefEdit :=
  let mm := buildMoveMap pending
  if mm = [] then []
  else analyses.foldl (fun acc a => acc ++ refEditsFor mm fs a) []

/-- Embedding of `build_migration_plan` on already-analyzed documents:
the bucketing loop, then duplicate detection over all analyses, then the
broken-reference scan over all analyses against the auto and suggested
buckets.  A `KeyError` from the loop aborts the whole construction. -/
def buildMigrationPlan (fs : FS) (analyses : List Analysis) :
    Except Str MigrationPlan :=
  match bucketGo analyses with
  | .error e => .error e
  | .ok (af, sf, mf) =>
    .ok { auto_moves := af
          suggested_moves := sf
          manual_review := mf
          duplicates := findDuplicates analyses
          broken_refs := findBrokenRefs fs (af ++ sf) analyses }

/-- The timestamped backup directory of `create_backup`. -/
def backupDirOf (root timestamp : Str) : Str :=
  root ++ "/.apm/backups/compliance-".data ++ timestamp

/-- The backup destination of one source path. -/
def backupDst (root timestamp src : Str) : Str :=
  joinS (backupDirOf root timestamp) (relpathS root src)

/-- The copy loop of `create_backup` over the auto and suggested buckets:
`shutil.copy2` each source to its destination under the backup root.  A
failed copy (unreadable source, or an injected destination write failure)
raises; `create_backup` has no handler, so the loop stops there and the
flag comes back `false`. -/
def createBackupGo (root timestamp : Str) (copyFails : Str → Bool) :
    List Analysis → FS → FS × Bool
  | [], fs => (fs, true)
  | a :: rest, fs =>
    let dst := backupDst root timestamp a.path
    match fsRead fs a.path with
    | none => (fs, false)
    | some c =>
      if copyFails dst then (fs, false)
      else createBackupGo root timestamp copyFails rest (fsWrite fs dst c)

/-- Mutable state threaded through the execution phase; `crashed` records
an exception that escaped a per-item handler. -/
structure ExecSt where
  fs : FS
  stats : Stats
  crashed : Bool

/-- The error line `execute_moves` prints for a failed move. -/
def msgMoveFail (p : Str) : Str := "Failed to move ".data ++ p

/-- Append a move-failure line to the log. -/
def logMoveFail (s : Stats) (p : Str) : Stats :=
  { s with log := s.log ++ [msgMoveFail p] }

/-- The counter updates of a successful move. -/
def applyMoveStats (s : Stats) (src dst : Str) : Stats :=
  { s with
    moved := s.moved + 1
    renamed := s.renamed + (if basenameS src = basenameS dst then 0 else 1) }

/-- Embedding of `execute_moves`.  Per item: reading `'correct_path'`
from an error record raises `KeyError` outside the `try` (crash); a
missing planned path crashes the interactive prompt (`basename(None)`)
but is caught inside the `try` in automatic mode; interactively, `'q'`
stops the loop and anything but `'y'` skips the item; the guarded body
moves the file and updates the counters, and any failure there (missing
source or injected move failure) is caught, logged with the offending
path, and the loop continues with the next item. -/
def executeMovesGo (respond : Str → Char) (moveFails : Str → Str → Bool)
    (auto : Bool) : List Analysis → ExecSt → ExecSt
  | [], st => st
  | a :: rest, st =>
    match a with
    | .err _ _ => { st with crashed := true }
    | .ok d =>
      match d.correct_path with
      | none =>
        if auto then
          executeMovesGo respond moveFails auto rest
            { st with stats := logMoveFail st.stats d.path }
        else { st with crashed := true }
      | some dst =>
        if auto = false ∧ respond d.path = 'q' then st
        else if auto = false ∧ respond d.path ≠ 'y' then
          executeMovesGo respond moveFails auto rest st
        else
          match fsRead st.fs d.path with
          | none =>
            executeMovesGo respond moveFails auto rest
              { st with stats := logMoveFail st.stats d.path }
          | some c =>
            if moveFails d.path dst then
              executeMovesGo respond moveFails auto rest
                { st with stats := logMoveFail st.stats d.path }
            else
              executeMovesGo respond moveFails auto rest
                { st with
                  fs := fsWrite (fsErase st.fs d.path) dst c
                  stats := applyMoveStats st.stats d.path dst }

/-- The error line `update_references` prints for a failed rewrite. -/
def msgRefFail (p : Str) : Str := "Failed to update references in ".data ++ p

/-- Append a rewrite-failure line to the log. -/
def logRefFail (s : Stats) (p : Str) : Stats :=
  { s with log := s.log ++ [msgRefFail p] }

/-- Embedding of `update_references`: for every planned edit re-read the
referencing file (a failure, including `basename(None)` on a missing new
path, is caught, logged, and skipped), and when the old basename still
occurs, write back the content with the old basename globally replaced
by the new one. -/
def updateReferencesGo : List RefEdit → ExecSt → ExecSt
  | [], st => st
  | r :: rest, st =>
    match fsRead st.fs r.file with
    | none => updateReferencesGo rest { st with stats := logRefFail st.stats r.file }
    | some content =>
      match r.new_ref with
      | none => updateReferencesGo rest { st with stats := logRefFail st.stats r.file }
      | some np =>
        let old_name := basenameS r.old_ref
        let new_name := basenameS np
        if isSubOf old_name content then
          updateReferencesGo rest
            { st with
              fs := fsWrite st.fs r.file (replaceAll old_name new_name content)
              stats := { st.stats with references_updated := st.stats.references_updated + 1 } }
        else updateReferencesGo rest st

/-- `confirm_migration`: with no planned moves it returns `False`
outright, otherwise the user's answer decides. -/
def confirmMigration (plan : MigrationPlan) (answer : Bool) : Bool :=
  if plan.auto_moves.length + plan.suggested_moves.length = 0 then false else answer

/-- The move phase of `execute_migration`: the auto bucket in automatic
per-item mode, then — only when the run mode is not `'auto'` — the
suggested bucket interactively; a crash in the first phase reaches the
outer handler before the second phase runs. -/
def migrationMoves (respond : Str → Char) (moveFails : Str → Str → Bool)
    (mode : Str) (plan : MigrationPlan) (st : ExecSt) : ExecSt :=
  let st1 := executeMovesGo respond moveFails true plan.auto_moves st
  if st1.crashed then st1
  else if mode ≠ "auto".data then
    executeMovesGo respond moveFails false plan.suggested_moves st1
  else st1

/-- How a run of `execute_migration` ended. -/
inductive RunOutcome where
  /-- All phases ran to the final summary (the function returns `True`). -/
  | completed
  /-- An exception inside the move phase was caught by the outer handler
  (the function prints the failure and returns `False`). -/
  | failedCaught
  /-- An exception escaped `execute_migration` itself — only the backup
  copy loop can do this, since it runs outside the `try`. -/
  | uncaughtErr
  /-- The confirmation gate declined; nothing was attempted. -/
  | declined
deriving DecidableEq

/-- The observable result of `execute_migration`. -/
structure RunResult where
  fs : FS
  stats : Stats
  outcome : RunOutcome

/-- Embedding of `execute_migration`: gate on `mode == 'auto'` or the
confirmation; create the backup first (outside the `try`, so its failure
aborts the run before any move); then the move phase and the reference
rewrite phase inside the `try`. -/
def executeMigration (root timestamp : Str) (confirmAnswer : Bool)
    (respond : Str → Char) (copyFails : Str → Bool)
    (moveFails : Str → Str → Bool) (mode : Str) (plan : MigrationPlan)
    (fs : FS) (stats : Stats) : RunResult :=
  if mode = "auto".data ∨ confirmMigration plan confirmAnswer = true then
    let bk := createBackupGo root timestamp copyFails
                (plan.auto_moves ++ plan.suggested_moves) fs
    if bk.2 = false then ⟨bk.1, stats, .uncaughtErr⟩
    else
      let st2 := migrationMoves respond moveFails mode plan ⟨bk.1, stats, false⟩
      if st2.crashed then ⟨st2.fs, st2.stats, .failedCaught⟩
      else
        let st3 := updateReferencesGo plan.broken_refs st2
        ⟨st3.fs, st3.stats, .completed⟩
  else ⟨fs, stats, .declined⟩

/-- A second, independent substring test, used to state specification-side
predicates: `pat` is a prefix of some suffix of `s`. -/
def containsSub (pat : Str) : Str → Bool
  | [] => pat.isPrefixOf []
  | c :: rest => pat.isPrefixOf (c :: rest) || containsSub pat rest

/-- Modelled from the claim's words for C6: normalization that removes
only a trailing `".md"` extension (rather than every occurrence), then
the separators. -/
def stripMdExt (n : Str) : Str :=
  match n.reverse with
  | 'd' :: 'm' :: '.' :: rest => rest.reverse
  | _ => n

/-- The C6 claim's normalization, on an already-lowercased name. -/
def claimNormalize (n : Str) : Str :=
  ((stripMdExt n).filter (fun c => c ≠ '-')).filter (fun c => c ≠ '_')

/-- The C6 claim's match predicate, read literally: lowercase, strip the
`".md"` extension and the separators, then substring containment either
way, or length difference at most 2 together with an aligned-character
ratio strictly above 0.7 of the longer name. -/
def claimNamesSimilar (n1 n2 : Str) : Bool :=
  let c1 := claimNormalize (lowerS n1)
  let c2 := claimNormalize (lowerS n2)
  containsSub c1 c2 || containsSub c2 c1 ||
    (decide (Nat.dist c1.length c2.length ≤ 2) &&
     decide (7 * max c1.length c2.length <
             10 * ((c1.zip c2).filter (fun p => p.1 = p.2)).length))

/-- The amended C6 normalization put into words: remove every occurrence
of `".md"` (left to right), then every hyphen and underscore. -/
def amendedNormalize (n : Str) : Str :=
  ((removeMd n).filter (fun c => c ≠ '-')).filter (fun c => c ≠ '_')

/-- The amended C6 match predicate: as the claim, but with the
all-occurrences `".md"` removal. -/
def amendedNamesSimilar (n1 n2 : Str) : Bool :=
  let c1 := amendedNormalize (lowerS n1)
  let c2 := amendedNormalize (lowerS n2)
  containsSub c1 c2 || containsSub c2 c1 ||
    (decide (Nat.dist c1.length c2.length ≤ 2) &&
     decide (7 * max c1.length c2.length <
             10 * ((c1.zip c2).filter (fun p => p.1 = p.2)).length))

/-- The records the bucket loop sends to `auto_moves`. -/
def pAuto : Analysis → Bool
  | .err _ _ => false
  | .ok d => d.needs_move && decide (90 ≤ d.confidence)

/-- The records the bucket loop sends to `suggested_moves`. -/
def pSugg : Analysis → Bool
  | .err _ _ => false
  | .ok d => d.needs_move && !(decide (90 ≤ d.confidence)) && decide (70 ≤ d.confidence)

/-- The records the bucket loop sends to `manual_review`. -/
def pMan : Analysis → Bool
  | .err _ _ => false
  | .ok d => d.needs_move && decide (d.confidence < 70)

/-- Fixture: a confidence-90 document needing a move. -/
def wDoc90 : DocAnalysis :=
  ⟨"/p/a.md".data, "test_plan".data, 90, some "/p/q/a.md".data, true, 3, "T".data⟩

/-- Fixture: a confidence-70 document needing a move. -/
def wDoc70 : DocAnalysis :=
  ⟨"/p/b.md".data, "test_plan".data, 70, some "/p/q/b.md".data, true, 3, "T".data⟩

/-- Fixture: zeroed run counters. -/
def stats0 : Stats := ⟨0, 0, 0, []⟩

/-- Fixture: the empty filesystem. -/
def emptyFS : FS := fun _ => none


/-- Fixture: a constant read-error message oracle. -/
def wErrMsg : Str → Str := fun _ => "boom".data

/-- Fixture: a constant creation-time oracle. -/
def wCtime : Str → Str := fun _ => "T".data

/-- Fixture: a classifier oracle that never recognizes a type. -/
def wDetect : Str → Str → Str × Nat := fun _ _ => ("x".data, 0)

/-- Fixture: a canonical-path oracle that resolves nothing. -/
def wGetPath : Str → Str → Str → Option Str := fun _ _ _ => none


/-- Fixture: first of a similar-named pair of analyzed documents. -/
def dupA : DocAnalysis :=
  ⟨"/p/test-plan-v1.md".data, "test_plan".data, 95, none, false, 1, "T".data⟩

/-- Fixture: second of a similar-named pair of analyzed documents. -/
def dupB : DocAnalysis :=
  ⟨"/p/testplanv1.md".data, "test_plan".data, 95, none, false, 2, "T".data⟩


/-- Fixture: a suggested-bucket document moving to a new basename. -/
def sDoc : DocAnalysis :=
  ⟨"/p/b.md".data, "t".data, 80, some "/p/d/bee.md".data, true, 1, "T".data⟩

/-- Fixture: a document whose content references the fixture move. -/
def rDoc : DocAnalysis :=
  ⟨"/p/r.md".data, "t".data, 40, none, false, 13, "T".data⟩

/-- Fixture: contents for the two fixture documents. -/
def wFS : FS := fun p =>
  if p = "/p/b.md".data then some "x".data
  else if p = "/p/r.md".data then some "see b.md here".data
  else none

/-- Fixture: the reference edit the scanner produces for the fixture pair. -/
def rEdit : RefEdit :=
  ⟨"/p/r.md".data, "/p/b.md".data, some "/p/d/bee.md".data, "b.md".data⟩


/-- Fixture: per-item answers (unused in automatic mode). -/
def wRespond : Str → Char := fun _ => 'y'

/-- Fixture: an injected move failure for the suggested fixture document. -/
def wMoveFails : Str → Str → Bool := fun src _ => src = "/p/b.md".data


theorem bucketGo_ok_eq (l : List Analysis)
    (t : List Analysis × List Analysis × List Analysis) (h : bucketGo l = .ok t) :
    t = (l.filter pAuto, l.filter pSugg, l.filter pMan) := by
  induction l generalizing t with
  | nil =>
    simp only [bucketGo, Except.ok.injEq] at h
    simp [← h]
  | cons a rest ih =>
    cases a with
    | err p m =>
      by_cases hm : m = []
      · simp [bucketGo, hm] at h
      · simp only [bucketGo, if_neg hm] at h
        simpa [List.filter_cons, pAuto, pSugg, pMan] using ih t h
    | ok d =>
      simp only [bucketGo] at h
      cases hrec : bucketGo rest with
      | error e => rw [hrec] at h; exact absurd h (by simp)
      | ok trip =>
        obtain ⟨af, sf, mf⟩ := trip
        rw [hrec] at h
        have hr := ih (af, sf, mf) hrec
        have haf : af = rest.filter pAuto := by
          simpa using congrArg (fun x => x.1) hr
        have hsf : sf = rest.filter pSugg := by
          simpa using congrArg (fun x => x.2.1) hr
        have hmf : mf = rest.filter pMan := by
          simpa using congrArg (fun x => x.2.2) hr
        subst haf hsf hmf
        dsimp only at h
        by_cases hnm : d.needs_move = false
        · rw [if_pos hnm] at h
          injection h with h
          subst h
          simp [List.filter_cons, pAuto, pSugg, pMan, hnm]
        · have hnm' : d.needs_move = true := by
            revert hnm; cases d.needs_move <;> simp
          rw [if_neg hnm] at h
          by_cases h90 : 90 ≤ d.confidence
          · rw [if_pos h90] at h
            injection h with h
            subst h
            have h70 : ¬ d.confidence < 70 := by omega
            simp [List.filter_cons, pAuto, pSugg, pMan, hnm', h90, h70]
          · rw [if_neg h90] at h
            by_cases h70 : 70 ≤ d.confidence
            · rw [if_pos h70] at h
              injection h with h
              subst h
              have hlt : ¬ d.confidence < 70 := by omega
              simp [List.filter_cons, pAuto, pSugg, pMan, hnm', h90, h70, hlt]
            · rw [if_neg h70] at h
              injection h with h
              subst h
              have hlt : d.confidence < 70 := by omega
              simp [List.filter_cons, pAuto, pSugg, pMan, hnm', h90, h70, hlt]

theorem buildMigrationPlan_buckets (fs : FS) (analyses : List Analysis)
    (plan : MigrationPlan) (hplan : buildMigrationPlan fs analyses = .ok plan) :
    plan.auto_moves = analyses.filter pAuto ∧
    plan.suggested_moves = analyses.filter pSugg ∧
    plan.manual_review = analyses.filter pMan := by
  unfold buildMigrationPlan at hplan
  cases hrec : bucketGo analyses with
  | error e => rw [hrec] at hplan; exact absurd hplan (by simp)
  | ok trip =>
    obtain ⟨af, sf, mf⟩ := trip
    rw [hrec] at hplan
    injection hplan with hplan
    have hr := bucketGo_ok_eq analyses (af, sf, mf) hrec
    have haf : af = analyses.filter pAuto := by
      simpa using congrArg (fun x => x.1) hr
    have hsf : sf = analyses.filter pSugg := by
      simpa using congrArg (fun x => x.2.1) hr
    have hmf : mf = analyses.filter pMan := by
      simpa using congrArg (fun x => x.2.2) hr
    subst hplan
    exact ⟨haf, hsf, hmf⟩

/-- C1: for every analyzed document with `needs_move = true` and no read
error, the migration plan places it in exactly one of the three buckets,
determined solely by its confidence: `>= 90` in `auto_moves`, `[70, 90)`
in `suggested_moves`, `< 70` in `manual_review` (so exactly 90 is auto
and exactly 70 is suggested); a document with `needs_move = false` is
placed in no bucket. -/
theorem c1_bucket_partition (fs : FS) (analyses : List Analysis)
    (plan : MigrationPlan)
    (hplan : buildMigrationPlan fs analyses = .ok plan)
    (d : DocAnalysis) (hmem : Analysis.ok d ∈ analyses) :
    (d.needs_move = true →
      ((90 ≤ d.confidence →
          Analysis.ok d ∈ plan.auto_moves ∧ Analysis.ok d ∉ plan.suggested_moves ∧
            Analysis.ok d ∉ plan.manual_review) ∧
       (70 ≤ d.confidence ∧ d.confidence < 90 →
          Analysis.ok d ∈ plan.suggested_moves ∧ Analysis.ok d ∉ plan.auto_moves ∧
            Analysis.ok d ∉ plan.manual_review) ∧
       (d.confidence < 70 →
          Analysis.ok d ∈ plan.manual_review ∧ Analysis.ok d ∉ plan.auto_moves ∧
            Analysis.ok d ∉ plan.suggested_moves))) ∧
    (d.needs_move = false →
      Analysis.ok d ∉ plan.auto_moves ∧ Analysis.ok d ∉ plan.suggested_moves ∧
        Analysis.ok d ∉ plan.manual_review) := by
  obtain ⟨ha, hs, hm⟩ := buildMigrationPlan_buckets fs analyses plan hplan
  rw [ha, hs, hm]
  constructor
  · intro hnm
    refine ⟨fun h90 => ?_, fun h79 => ?_, fun h70 => ?_⟩
    · refine ⟨List.mem_filter.mpr ⟨hmem, by simp [pAuto, hnm, h90]⟩, ?_, ?_⟩ <;>
        · intro hc
          have := (List.mem_filter.mp hc).2
          simp [pSugg, pMan, hnm] at this <;> omega
    · refine ⟨List.mem_filter.mpr ⟨hmem, by simp [pSugg, hnm]; omega⟩, ?_, ?_⟩ <;>
        · intro hc
          have := (List.mem_filter.mp hc).2
          simp [pAuto, pMan, hnm] at this <;> omega
    · refine ⟨List.mem_filter.mpr ⟨hmem, by simp [pMan, hnm]; omega⟩, ?_, ?_⟩ <;>
        · intro hc
          have := (List.mem_filter.mp hc).2
          simp [pAuto, pSugg, hnm] at this <;> omega
  · intro hnm
    refine ⟨?_, ?_, ?_⟩ <;>
      · intro hc
        have := (List.mem_filter.mp hc).2
        simp [pAuto, pSugg, pMan, hnm] at this

/-- Witness for C1 at a concrete plan: a confidence-90 document lands in
`auto_moves` and in neither other bucket. -/
theorem c1_bucket_partition_witness :
    buildMigrationPlan emptyFS [Analysis.ok wDoc90, Analysis.ok wDoc70]
        = .ok ⟨[Analysis.ok wDoc90], [Analysis.ok wDoc70], [], [], []⟩ ∧
    Analysis.ok wDoc90 ∈ [Analysis.ok wDoc90, Analysis.ok wDoc70] ∧
    wDoc90.needs_move = true ∧ 90 ≤ wDoc90.confidence ∧
    (Analysis.ok wDoc90 ∈
        (⟨[Analysis.ok wDoc90], [Analysis.ok wDoc70], [], [], []⟩ : MigrationPlan).auto_moves ∧
      Analysis.ok wDoc90 ∉
        (⟨[Analysis.ok wDoc90], [Analysis.ok wDoc70], [], [], []⟩ : MigrationPlan).suggested_moves ∧
      Analysis.ok wDoc90 ∉
        (⟨[Analysis.ok wDoc90], [Analysis.ok wDoc70], [], [], []⟩ : MigrationPlan).manual_review) :=
  ⟨by rfl, by decide, by decide, by decide,
    ((c1_bucket_partition emptyFS [Analysis.ok wDoc90, Analysis.ok wDoc70]
        ⟨[Analysis.ok wDoc90], [Analysis.ok wDoc70], [], [], []⟩ (by rfl)
        wDoc90 (by decide)).1 (by decide)).1 (by decide)⟩

/-- C9: a document whose read fails yields the degenerate analysis with
`doc_type = "error"` and `confidence = 0`; every bucket of a successfully
built migration plan holds only error-free records (so the degenerate
record is in none of them), while the scanned total still counts every
scanned document including this one. -/
theorem c9_error_analysis (fs : FS) (errMsg ctime : Str → Str)
    (detect : Str → Str → Str × Nat)
    (getCorrectPath : Str → Str → Str → Option Str)
    (documents : List Str) (d : Str) (hd : d ∈ documents)
    (hread : fsRead fs d = none) (plan : MigrationPlan)
    (hplan : buildMigrationPlan fs
        (documents.map (analyzeDocument fs errMsg ctime detect getCorrectPath))
      = .ok plan) :
    analyzeDocument fs errMsg ctime detect getCorrectPath d = .err d (errMsg d) ∧
    (Analysis.err d (errMsg d)).docType = "error".data ∧
    (Analysis.err d (errMsg d)).conf = 0 ∧
    (∀ a ∈ plan.auto_moves ++ plan.suggested_moves ++ plan.manual_review,
        a.getError = none) ∧
    statsScanned documents = documents.length ∧ 0 < statsScanned documents := by
  obtain ⟨ha, hs, hm⟩ := buildMigrationPlan_buckets _ _ _ hplan
  refine ⟨?_, rfl, rfl, ?_, rfl, ?_⟩
  · unfold analyzeDocument
    rw [hread]
  · intro a hmem
    rcases List.mem_append.mp hmem with hmem | hmem
    rcases List.mem_append.mp hmem with hmem | hmem
    · rw [ha] at hmem
      have := (List.mem_filter.mp hmem).2
      cases a with
      | err p m => simp [pAuto] at this
      | ok e => rfl
    · rw [hs] at hmem
      have := (List.mem_filter.mp hmem).2
      cases a with
      | err p m => simp [pSugg] at this
      | ok e => rfl
    · rw [hm] at hmem
      have := (List.mem_filter.mp hmem).2
      cases a with
      | err p m => simp [pMan] at this
      | ok e => rfl
  · have : documents ≠ [] := List.ne_nil_of_mem hd
    simpa [statsScanned, List.length_pos] using this

/-- Witness for C9: one unreadable document, counted as scanned, lands in
no bucket of the concretely computed (empty) plan. -/
theorem c9_error_analysis_witness :
    "/p/a.md".data ∈ ["/p/a.md".data] ∧
    fsRead emptyFS "/p/a.md".data = none ∧
    buildMigrationPlan emptyFS
        (["/p/a.md".data].map (analyzeDocument emptyFS wErrMsg wCtime wDetect wGetPath))
      = .ok ⟨[], [], [], [], []⟩ ∧
    (analyzeDocument emptyFS wErrMsg wCtime wDetect wGetPath "/p/a.md".data
        = .err "/p/a.md".data (wErrMsg "/p/a.md".data) ∧
      (Analysis.err "/p/a.md".data (wErrMsg "/p/a.md".data)).docType = "error".data ∧
      (Analysis.err "/p/a.md".data (wErrMsg "/p/a.md".data)).conf = 0 ∧
      (∀ a ∈ (⟨[], [], [], [], []⟩ : MigrationPlan).auto_moves ++
          (⟨[], [], [], [], []⟩ : MigrationPlan).suggested_moves ++
          (⟨[], [], [], [], []⟩ : MigrationPlan).manual_review,
          a.getError = none) ∧
      statsScanned ["/p/a.md".data] = ["/p/a.md".data].length ∧
      0 < statsScanned ["/p/a.md".data]) :=
  ⟨by decide, by rfl, by rfl,
    c9_error_analysis emptyFS wErrMsg wCtime wDetect wGetPath
      ["/p/a.md".data] "/p/a.md".data (by decide) (by rfl)
      ⟨[], [], [], [], []⟩ (by rfl)⟩

theorem alignedCount_comm (s t : Str) :
    ((s.zip t).filter (fun p => p.1 = p.2)).length =
      ((t.zip s).filter (fun p => p.1 = p.2)).length := by
  induction s generalizing t with
  | nil => cases t <;> simp
  | cons c s ih =>
    cases t with
    | nil => simp
    | cons d t =>
      simp only [List.zip_cons_cons, List.filter_cons]
      by_cases h : c = d
      · subst h
        simp [ih]
      · simp [h, Ne.symm h, ih t]

theorem namesAreSimilar_symm (n1 n2 : Str) :
    namesAreSimilar n1 n2 = namesAreSimilar n2 n1 := by
  unfold namesAreSimilar
  dsimp only
  rw [alignedCount_comm, Nat.dist_comm, Nat.max_comm]
  cases isSubOf (((removeMd n1).filter (fun c => c ≠ '-')).filter (fun c => c ≠ '_'))
      (((removeMd n2).filter (fun c => c ≠ '-')).filter (fun c => c ≠ '_')) <;>
    cases isSubOf (((removeMd n2).filter (fun c => c ≠ '-')).filter (fun c => c ≠ '_'))
        (((removeMd n1).filter (fun c => c ≠ '-')).filter (fun c => c ≠ '_')) <;>
    simp

theorem findDuplicates_pair (A B : Analysis) (t : Str)
    (hA : A.docType = t) (hB : B.docType = t) (ht : t ≠ [])
    (hu : t ≠ "uncertain".data)
    (hsim : namesAreSimilar (lowerS (basenameS A.path)) (lowerS (basenameS B.path))
      = true) :
    findDuplicates [A, B] = [⟨t, [A, B], "filename".data⟩] := by
  unfold findDuplicates groupByType addToGroups addGroupsForType
  simp [hA, hB, ht, hu, hsim, pairsOf]

theorem addGroupsForType_nodup (t : Str) (docs : List Analysis)
    (acc : List DupGroup) (h : acc.Nodup) : (addGroupsForType t docs acc).Nodup := by
  unfold addGroupsForType
  generalize pairsOf docs = l
  induction l generalizing acc with
  | nil => simpa
  | cons pr rest ih =>
    simp only [List.foldl_cons]
    apply ih
    split
    · split
      · exact h
      · next hg =>
        refine List.Nodup.append h (List.nodup_singleton _) ?_
        intro x hx hx'
        simp only [List.mem_singleton] at hx'
        subst hx'
        exact hg hx
    · exact h

theorem findDuplicates_nodup_aux (gs : List (Str × List Analysis))
    (acc : List DupGroup) (h : acc.Nodup) :
    (gs.foldl
      (fun acc tg => if tg.2.length < 2 then acc else addGroupsForType tg.1 tg.2 acc)
      acc).Nodup := by
  induction gs generalizing acc with
  | nil => simpa
  | cons g rest ih =>
    simp only [List.foldl_cons]
    apply ih
    split
    · exact h
    · exact addGroupsForType_nodup _ _ _ h

theorem findDuplicates_nodup (analyses : List Analysis) :
    (findDuplicates analyses).Nodup :=
  findDuplicates_nodup_aux _ _ List.nodup_nil

theorem mem_addToGroups_bind (gs : List (Str × List Analysis)) (k : Str)
    (x a : Analysis) :
    a ∈ (addToGroups gs k x).flatMap (fun g => g.2) ↔
      a ∈ gs.flatMap (fun g => g.2) ∨ a = x := by
  unfold addToGroups
  split
  · next hany =>
    simp only [List.mem_flatMap, List.mem_map]
    constructor
    · rintro ⟨g, ⟨g0, hg0, rfl⟩, hag⟩
      by_cases hk : g0.1 = k
      · simp only [if_pos hk] at hag
        rcases List.mem_append.mp hag with h | h
        · exact Or.inl ⟨g0, hg0, h⟩
        · simp only [List.mem_singleton] at h
          exact Or.inr h
      · simp only [if_neg hk] at hag
        exact Or.inl ⟨g0, hg0, hag⟩
    · rintro (⟨g0, hg0, hag⟩ | rfl)
      · refine ⟨_, ⟨g0, hg0, rfl⟩, ?_⟩
        by_cases hk : g0.1 = k <;> simp [hk, hag]
      · obtain ⟨g0, hg0, hk⟩ := List.any_eq_true.mp hany
        simp only [decide_eq_true_eq] at hk
        refine ⟨_, ⟨g0, hg0, rfl⟩, ?_⟩
        simp [hk]
  · simp [List.mem_flatMap, or_assoc]

theorem mem_groupByType_aux (analyses : List Analysis) :
    ∀ (gs : List (Str × List Analysis)) (a : Analysis),
    (a ∈ (analyses.foldl
        (fun gs x =>
          if x.docType ≠ [] ∧ x.docType ≠ "uncertain".data then addToGroups gs x.docType x
          else gs) gs).flatMap (fun g => g.2)) ↔
      (a ∈ gs.flatMap (fun g => g.2) ∨
        (a ∈ analyses ∧ a.docType ≠ [] ∧ a.docType ≠ "uncertain".data)) := by
  induction analyses with
  | nil => simp
  | cons x rest ih =>
    intro gs a
    simp only [List.foldl_cons]
    by_cases hc : x.docType ≠ [] ∧ x.docType ≠ "uncertain".data
    · rw [if_pos hc, ih, mem_addToGroups_bind]
      constructor
      · rintro ((h | rfl) | h)
        · exact Or.inl h
        · exact Or.inr ⟨List.mem_cons_self _ _, hc⟩
        · exact Or.inr ⟨List.mem_cons_of_mem _ h.1, h.2⟩
      · rintro (h | ⟨hmem, hprops⟩)
        · exact Or.inl (Or.inl h)
        · rcases List.mem_cons.mp hmem with rfl | h
          · exact Or.inl (Or.inr rfl)
          · exact Or.inr ⟨h, hprops⟩
    · rw [if_neg hc, ih]
      constructor
      · rintro (h | h)
        · exact Or.inl h
        · exact Or.inr ⟨List.mem_cons_of_mem _ h.1, h.2⟩
      · rintro (h | ⟨hmem, hprops⟩)
        · exact Or.inl h
        · rcases List.mem_cons.mp hmem with rfl | h
          · exact absurd hprops hc
          · exact Or.inr ⟨h, hprops⟩

/-- Counterexample to C5: for the concrete similar-named pair, swapping
the encounter order produces a group record that does not compare equal
(the two documents are stored in encounter order), and a single run in
which the same document is encountered twice reports the same type and
path pair in two differently-ordered group records. -/
theorem c5_counterexample :
    findDuplicates [Analysis.ok dupA, Analysis.ok dupB]
        = [⟨"test_plan".data, [Analysis.ok dupA, Analysis.ok dupB], "filename".data⟩] ∧
    findDuplicates [Analysis.ok dupB, Analysis.ok dupA]
        = [⟨"test_plan".data, [Analysis.ok dupB, Analysis.ok dupA], "filename".data⟩] ∧
    findDuplicates [Analysis.ok dupA, Analysis.ok dupB]
        ≠ findDuplicates [Analysis.ok dupB, Analysis.ok dupA] ∧
    findDuplicates [Analysis.ok dupA, Analysis.ok dupB, Analysis.ok dupA]
        = [⟨"test_plan".data, [Analysis.ok dupA, Analysis.ok dupB], "filename".data⟩,
           ⟨"test_plan".data, [Analysis.ok dupA, Analysis.ok dupA], "filename".data⟩,
           ⟨"test_plan".data, [Analysis.ok dupB, Analysis.ok dupA], "filename".data⟩] := by
  refine ⟨by decide, by decide, by decide, by decide⟩

/-- C5 as amended: detection of a similar same-typed pair is insensitive
to encounter order up to the stored order of the two documents — the
swapped run reports the group with the same type and the same two
documents, in swapped list order, so the two records are equal as
unordered pairs but not as records — and within one run the duplicates
list never contains two equal group records. -/
theorem c5_amended (A B : Analysis) (t : Str) (analyses : List Analysis)
    (hA : A.docType = t) (hB : B.docType = t) (ht : t ≠ [])
    (hu : t ≠ "uncertain".data)
    (hsim : namesAreSimilar (lowerS (basenameS A.path)) (lowerS (basenameS B.path))
      = true) :
    findDuplicates [A, B] = [⟨t, [A, B], "filename".data⟩] ∧
    findDuplicates [B, A] = [⟨t, [B, A], "filename".data⟩] ∧
    (findDuplicates analyses).Nodup :=
  ⟨findDuplicates_pair A B t hA hB ht hu hsim,
   findDuplicates_pair B A t hB hA ht hu
     (by rw [namesAreSimilar_symm]; exact hsim),
   findDuplicates_nodup analyses⟩

/-- Witness for the amended C5 at the concrete similar-named pair. -/
theorem c5_amended_witness :
    (Analysis.ok dupA).docType = "test_plan".data ∧
    (Analysis.ok dupB).docType = "test_plan".data ∧
    "test_plan".data ≠ ([] : Str) ∧
    "test_plan".data ≠ "uncertain".data ∧
    namesAreSimilar (lowerS (basenameS (Analysis.ok dupA).path))
        (lowerS (basenameS (Analysis.ok dupB).path)) = true ∧
    (findDuplicates [Analysis.ok dupA, Analysis.ok dupB]
        = [⟨"test_plan".data, [Analysis.ok dupA, Analysis.ok dupB], "filename".data⟩] ∧
      findDuplicates [Analysis.ok dupB, Analysis.ok dupA]
        = [⟨"test_plan".data, [Analysis.ok dupB, Analysis.ok dupA], "filename".data⟩] ∧
      (findDuplicates [Analysis.ok dupA, Analysis.ok dupB]).Nodup) :=
  ⟨by decide, by decide, by decide, by decide, by decide,
    c5_amended (Analysis.ok dupA) (Analysis.ok dupB) "test_plan".data
      [Analysis.ok dupA, Analysis.ok dupB] (by decide) (by decide) (by decide)
      (by decide) (by decide)⟩

/-- C10: documents whose read failed are not excluded from duplicate
detection — two unreadable documents with similar filenames form a
duplicate group of type `"error"` — and membership in the detector's type
groups excludes exactly the analyses whose `doc_type` is falsy or
`"uncertain"`. -/
theorem c10_error_docs_duplicates (p1 m1 p2 m2 : Str)
    (analyses : List Analysis) (a : Analysis)
    (hsim : namesAreSimilar (lowerS (basenameS p1)) (lowerS (basenameS p2)) = true) :
    findDuplicates [Analysis.err p1 m1, Analysis.err p2 m2]
        = [⟨"error".data, [Analysis.err p1 m1, Analysis.err p2 m2], "filename".data⟩] ∧
    (a ∈ (groupByType analyses).flatMap (fun g => g.2) ↔
      a ∈ analyses ∧ a.docType ≠ [] ∧ a.docType ≠ "uncertain".data) := by
  constructor
  · exact findDuplicates_pair _ _ _ rfl rfl (by decide) (by decide) hsim
  · have := mem_groupByType_aux analyses [] a
    simpa [groupByType] using this

/-- Witness for C10: two concrete unreadable documents with similar names
are reported as one duplicate group of type `"error"`. -/
theorem c10_error_docs_duplicates_witness :
    namesAreSimilar (lowerS (basenameS "/p/plan-v1.md".data))
        (lowerS (basenameS "/p/planv1.md".data)) = true ∧
    (findDuplicates
        [Analysis.err "/p/plan-v1.md".data "e1".data,
         Analysis.err "/p/planv1.md".data "e2".data]
        = [⟨"error".data,
            [Analysis.err "/p/plan-v1.md".data "e1".data,
             Analysis.err "/p/planv1.md".data "e2".data], "filename".data⟩] ∧
      (Analysis.err "/p/plan-v1.md".data "e1".data ∈
          (groupByType [Analysis.err "/p/plan-v1.md".data "e1".data]).flatMap
            (fun g => g.2) ↔
        Analysis.err "/p/plan-v1.md".data "e1".data ∈
            [Analysis.err "/p/plan-v1.md".data "e1".data] ∧
          (Analysis.err "/p/plan-v1.md".data "e1".data).docType ≠ [] ∧
          (Analysis.err "/p/plan-v1.md".data "e1".data).docType ≠ "uncertain".data)) :=
  ⟨by decide,
    c10_error_docs_duplicates "/p/plan-v1.md".data "e1".data "/p/planv1.md".data
      "e2".data [Analysis.err "/p/plan-v1.md".data "e1".data]
      (Analysis.err "/p/plan-v1.md".data "e1".data) (by decide)⟩

theorem isSubOf_cons (pat : Str) (c : Char) (rest : Str) :
    isSubOf pat (c :: rest) = (pat.isPrefixOf (c :: rest) || isSubOf pat rest) := by
  unfold isSubOf
  rw [List.length_cons, List.range_succ_eq_map]
  simp [List.any_cons, List.any_map, Function.comp_def]

theorem isSubOf_eq_containsSub (pat s : Str) : isSubOf pat s = containsSub pat s := by
  induction s with
  | nil => simp [isSubOf, containsSub, List.range_succ]
  | cons c rest ih => rw [isSubOf_cons, containsSub, ih]

/-- Counterexample to C6: the code strips every occurrence of `".md"`
(Python `str.replace`), not only the trailing extension, so for the pair
of names `x.mdy.md` and `xy.md` the code declares a match while the
claim's extension-stripping normalization does not. -/
theorem c6_counterexample :
    similarVerdict "x.mdy.md".data "xy.md".data = true ∧
    claimNamesSimilar "x.mdy.md".data "xy.md".data = false := by
  refine ⟨by decide, by decide⟩

/-- C6 as amended: two lowercased filenames of same-typed documents are
declared a duplicate match if and only if, after removing every
occurrence of the substring `".md"` (left to right) and every hyphen and
underscore, one normalized name is a substring of the other, or both the
normalized length difference is at most 2 and the count of
position-aligned equal characters over the longer normalized length
exceeds 0.7. -/
theorem c6_amended (n1 n2 : Str) :
    similarVerdict n1 n2 = amendedNamesSimilar n1 n2 := by
  unfold similarVerdict namesAreSimilar amendedNamesSimilar amendedNormalize
  dsimp only
  rw [isSubOf_eq_containsSub, isSubOf_eq_containsSub]

theorem foldl_append_eq_flatMap (l : List α) (f : α → List β) (acc : List β) :
    l.foldl (fun acc a => acc ++ f a) acc = acc ++ l.flatMap f := by
  induction l generalizing acc with
  | nil => simp
  | cons x rest ih => simp [ih, List.append_assoc]

theorem refEditsFor_empty (fs : FS) (a : Analysis) :
    refEditsFor [] fs a = [] := by
  unfold refEditsFor
  cases fsRead fs a.path <;> simp

theorem findBrokenRefs_eq (fs : FS) (pending analyses : List Analysis) :
    findBrokenRefs fs pending analyses
      = analyses.flatMap (refEditsFor (buildMoveMap pending) fs) := by
  unfold findBrokenRefs
  dsimp only
  split
  · next h =>
    rw [h]
    simp [refEditsFor_empty]
  · rw [foldl_append_eq_flatMap]
    simp

theorem refEditsFor_file (mm : List (Str × Option Str)) (fs : FS) (a : Analysis)
    (e : RefEdit) (he : e ∈ refEditsFor mm fs a) : e.file = a.path := by
  unfold refEditsFor at he
  cases h : fsRead fs a.path with
  | none => rw [h] at he; cases he
  | some c =>
    rw [h] at he
    obtain ⟨om, hom, hsome⟩ := List.mem_filterMap.mp he
    dsimp only at hsome
    split at hsome
    · cases hsome; rfl
    · cases hsome

theorem refEditsFor_old_ref (mm : List (Str × Option Str)) (fs : FS) (a : Analysis)
    (e : RefEdit) (he : e ∈ refEditsFor mm fs a) : e.old_ref ∈ mm.map Prod.fst := by
  unfold refEditsFor at he
  cases h : fsRead fs a.path with
  | none => rw [h] at he; cases he
  | some c =>
    rw [h] at he
    obtain ⟨om, hom, hsome⟩ := List.mem_filterMap.mp he
    dsimp only at hsome
    split at hsome
    · cases hsome
      exact List.mem_map_of_mem _ hom
    · cases hsome

theorem refEditsFor_readable (mm : List (Str × Option Str)) (fs : FS) (a : Analysis)
    (hn : fsRead fs a.path = none) : refEditsFor mm fs a = [] := by
  unfold refEditsFor
  rw [hn]

theorem count_key_zero (c apath k : Str) :
    ∀ mm : List (Str × Option Str), k ∉ mm.map Prod.fst →
    (mm.filterMap (fun om =>
        if isSubOf (basenameS om.1) c || isSubOf om.1 c then
          some (RefEdit.mk apath om.1 om.2 (basenameS om.1))
        else none)).filter (fun e => e.old_ref = k) = [] := by
  intro mm
  induction mm with
  | nil => intro _; rfl
  | cons m' rest ih =>
    intro hk
    have hk1 : m'.1 ≠ k := fun h => hk (by simp [← h])
    have hk2 : k ∉ rest.map Prod.fst := fun h => hk (by simp [h])
    by_cases hhit : (isSubOf (basenameS m'.1) c || isSubOf m'.1 c) = true
    · rw [List.filterMap_cons_some (by rw [if_pos hhit])]
      rw [List.filter_cons, if_neg (by simp [hk1])]
      exact ih hk2
    · rw [List.filterMap_cons_none (by rw [if_neg hhit])]
      exact ih hk2

theorem count_key_one (c apath : Str) :
    ∀ mm : List (Str × Option Str), (mm.map Prod.fst).Nodup →
    ∀ om ∈ mm,
    ((mm.filterMap (fun om' =>
        if isSubOf (basenameS om'.1) c || isSubOf om'.1 c then
          some (RefEdit.mk apath om'.1 om'.2 (basenameS om'.1))
        else none)).filter (fun e => e.old_ref = om.1)).length
      = if isSubOf (basenameS om.1) c || isSubOf om.1 c then 1 else 0 := by
  intro mm
  induction mm with
  | nil => intro _ om hom; cases hom
  | cons m' rest ih =>
    intro hnd om hom
    rw [List.map_cons] at hnd
    have hndk : m'.1 ∉ rest.map Prod.fst := (List.nodup_cons.mp hnd).1
    have hndr : (rest.map Prod.fst).Nodup := (List.nodup_cons.mp hnd).2
    rcases List.mem_cons.mp hom with rfl | hom'
    · by_cases hhit : (isSubOf (basenameS om.1) c || isSubOf om.1 c) = true
      · rw [List.filterMap_cons_some (by rw [if_pos hhit])]
        rw [List.filter_cons, if_pos (by simp)]
        rw [count_key_zero c apath om.1 rest hndk, if_pos hhit]
        rfl
      · rw [List.filterMap_cons_none (by rw [if_neg hhit])]
        rw [count_key_zero c apath om.1 rest hndk, if_neg hhit]
        rfl
    · have hne : m'.1 ≠ om.1 := by
        intro hEq
        exact hndk (hEq ▸ List.mem_map_of_mem _ hom')
      by_cases hhit : (isSubOf (basenameS m'.1) c || isSubOf m'.1 c) = true
      · rw [List.filterMap_cons_some (by rw [if_pos hhit])]
        rw [List.filter_cons, if_neg (by simp [hne])]
        exact ih hndr om hom'
      · rw [List.filterMap_cons_none (by rw [if_neg hhit])]
        exact ih hndr om hom'

theorem map_update_keys (m : List (Str × Option Str)) (k : Str) (v : Option Str) :
    (m.map (fun p => if p.1 = k then (k, v) else p)).map Prod.fst = m.map Prod.fst := by
  rw [List.map_map]
  apply List.map_congr_left
  intro p hp
  by_cases h : p.1 = k <;> simp [h]

theorem dictInsert_keys (m : List (Str × Option Str)) (k : Str) (v : Option Str)
    (x : Str) :
    x ∈ (dictInsert m k v).map Prod.fst ↔ x ∈ m.map Prod.fst ∨ x = k := by
  unfold dictInsert
  split
  · next hany =>
    rw [map_update_keys]
    constructor
    · exact Or.inl
    · rintro (h | rfl)
      · exact h
      · obtain ⟨p, hp, hk⟩ := List.any_eq_true.mp hany
        simp only [decide_eq_true_eq] at hk
        exact hk ▸ List.mem_map_of_mem _ hp
  · rw [List.map_append]
    simp

theorem dictInsert_keys_nodup (m : List (Str × Option Str)) (k : Str)
    (v : Option Str) (h : (m.map Prod.fst).Nodup) :
    ((dictInsert m k v).map Prod.fst).Nodup := by
  unfold dictInsert
  split
  · rw [map_update_keys]
    exact h
  · next hany =>
    rw [List.map_append]
    refine List.Nodup.append h (by simp) ?_
    intro x hx hx'
    simp only [List.map_cons, List.map_nil, List.mem_singleton] at hx'
    subst hx'
    obtain ⟨p, hp, hpk⟩ := List.mem_map.mp hx
    exact hany (List.any_eq_true.mpr ⟨p, hp, by simp [hpk]⟩)

theorem buildMoveMap_keys_aux (pending : List Analysis) :
    ∀ (m : List (Str × Option Str)) (x : Str),
    (x ∈ (pending.foldl (fun m a => dictInsert m a.path a.correctPathD) m).map
        Prod.fst) ↔
      x ∈ m.map Prod.fst ∨ x ∈ pending.map Analysis.path := by
  induction pending with
  | nil => simp
  | cons a rest ih =>
    intro m x
    simp only [List.foldl_cons]
    rw [ih, dictInsert_keys]
    simp only [List.map_cons, List.mem_cons]
    tauto

theorem buildMoveMap_nodup_aux (pending : List Analysis) :
    ∀ m : List (Str × Option Str), (m.map Prod.fst).Nodup →
    ((pending.foldl (fun m a => dictInsert m a.path a.correctPathD) m).map
        Prod.fst).Nodup := by
  induction pending with
  | nil => intro m h; simpa
  | cons a rest ih =>
    intro m h
    simp only [List.foldl_cons]
    exact ih _ (dictInsert_keys_nodup _ _ _ h)

theorem buildMoveMap_keys_nodup (pending : List Analysis) :
    ((buildMoveMap pending).map Prod.fst).Nodup :=
  buildMoveMap_nodup_aux pending [] (by simp)

theorem buildMoveMap_keys_sub (pending : List Analysis) (x : Str)
    (hx : x ∈ (buildMoveMap pending).map Prod.fst) :
    x ∈ pending.map Analysis.path := by
  have := (buildMoveMap_keys_aux pending [] x).mp hx
  simpa using this

theorem refEditsFor_count (mm : List (Str × Option Str)) (fs : FS) (a : Analysis)
    (hk : (mm.map Prod.fst).Nodup) (c : Str) (hc : fsRead fs a.path = some c)
    (om : Str × Option Str) (hom : om ∈ mm) :
    ((refEditsFor mm fs a).filter (fun e => e.old_ref = om.1)).length
      = if isSubOf (basenameS om.1) c || isSubOf om.1 c then 1 else 0 := by
  unfold refEditsFor
  rw [hc]
  exact count_key_one c a.path mm hk om hom

theorem refs_filter_segment (mm : List (Str × Option Str)) (fs : FS) :
    ∀ (analyses : List Analysis) (a : Analysis), a ∈ analyses →
    (analyses.map Analysis.path).Nodup → ∀ k : Str,
    ((analyses.flatMap (refEditsFor mm fs)).filter
        (fun e => e.file = a.path ∧ e.old_ref = k)).length
      = ((refEditsFor mm fs a).filter (fun e => e.old_ref = k)).length := by
  intro analyses
  induction analyses with
  | nil => intro a ha; cases ha
  | cons b rest ih =>
    intro a ha hnd k
    rw [List.map_cons] at hnd
    have hnd1 := (List.nodup_cons.mp hnd).1
    have hnd2 := (List.nodup_cons.mp hnd).2
    rw [List.flatMap_cons, List.filter_append, List.length_append]
    rcases List.mem_cons.mp ha with rfl | ha'
    · have h1 : (refEditsFor mm fs a).filter (fun e => e.file = a.path ∧ e.old_ref = k)
          = (refEditsFor mm fs a).filter (fun e => e.old_ref = k) := by
        apply List.filter_congr
        intro e he
        have hf := refEditsFor_file mm fs a e he
        simp [hf]
      have h2 : (rest.flatMap (refEditsFor mm fs)).filter
          (fun e => e.file = a.path ∧ e.old_ref = k) = [] := by
        rw [List.filter_eq_nil_iff]
        intro e he
        obtain ⟨b', hb', he'⟩ := List.mem_flatMap.mp he
        have hf := refEditsFor_file mm fs b' e he'
        have hbne : b'.path ≠ a.path := by
          intro hEq
          exact hnd1 (hEq ▸ List.mem_map_of_mem _ hb')
        simp [hf, hbne]
      rw [h1, h2]
      simp
    · have hba : b.path ≠ a.path := by
        intro hEq
        exact hnd1 (hEq ▸ List.mem_map_of_mem _ ha')
      have h2 : (refEditsFor mm fs b).filter
          (fun e => e.file = a.path ∧ e.old_ref = k) = [] := by
        rw [List.filter_eq_nil_iff]
        intro e he
        have hf := refEditsFor_file mm fs b e he
        simp [hf, hba]
      rw [h2]
      simpa using ih a ha' hnd2 k

/-- C7: the reference scanner produces exactly one `ReferenceEdit` per
(analyzed document, pending move) pair whose old basename or full old
path occurs verbatim in the document's content; its pending set is built
from exactly the auto and suggested buckets (never `manual_review`);
every produced edit refers to a readable file, so an unreadable document
yields none. -/
theorem c7_reference_scanner (fs : FS) (pending analyses : List Analysis)
    (hnd : (analyses.map Analysis.path).Nodup) :
    (∀ e ∈ findBrokenRefs fs pending analyses,
        e.old_ref ∈ pending.map Analysis.path) ∧
    (∀ e ∈ findBrokenRefs fs pending analyses, fsRead fs e.file ≠ none) ∧
    (∀ a ∈ analyses, ∀ c, fsRead fs a.path = some c →
      ∀ om ∈ buildMoveMap pending,
        ((findBrokenRefs fs pending analyses).filter
            (fun e => e.file = a.path ∧ e.old_ref = om.1)).length
          = if isSubOf (basenameS om.1) c || isSubOf om.1 c then 1 else 0) ∧
    (∀ plan : MigrationPlan, buildMigrationPlan fs analyses = .ok plan →
      plan.broken_refs
        = findBrokenRefs fs (plan.auto_moves ++ plan.suggested_moves) analyses) := by
  refine ⟨?_, ?_, ?_, ?_⟩
  · intro e he
    rw [findBrokenRefs_eq] at he
    obtain ⟨a, ha, he'⟩ := List.mem_flatMap.mp he
    exact buildMoveMap_keys_sub pending e.old_ref (refEditsFor_old_ref _ _ _ _ he')
  · intro e he
    rw [findBrokenRefs_eq] at he
    obtain ⟨a, ha, he'⟩ := List.mem_flatMap.mp he
    rw [refEditsFor_file _ _ _ _ he']
    intro hn
    rw [refEditsFor_readable _ _ _ hn] at he'
    cases he'
  · intro a ha c hc om hom
    rw [findBrokenRefs_eq]
    rw [refs_filter_segment (buildMoveMap pending) fs analyses a ha hnd om.1]
    exact refEditsFor_count _ fs a (buildMoveMap_keys_nodup pending) c hc om hom
  · intro plan hplan
    unfold buildMigrationPlan at hplan
    cases hrec : bucketGo analyses with
    | error e => rw [hrec] at hplan; exact absurd hplan (by simp)
    | ok trip =>
      obtain ⟨af, sf, mf⟩ := trip
      rw [hrec] at hplan
      injection hplan with hplan
      subst hplan
      rfl

/-- Witness for C7 at a concrete corpus of two documents with one pending
move. -/
theorem c7_reference_scanner_witness :
    (([Analysis.ok sDoc, Analysis.ok rDoc].map Analysis.path).Nodup) ∧
    ((∀ e ∈ findBrokenRefs wFS [Analysis.ok sDoc] [Analysis.ok sDoc, Analysis.ok rDoc],
        e.old_ref ∈ [Analysis.ok sDoc].map Analysis.path) ∧
      (∀ e ∈ findBrokenRefs wFS [Analysis.ok sDoc] [Analysis.ok sDoc, Analysis.ok rDoc],
        fsRead wFS e.file ≠ none) ∧
      (∀ a ∈ [Analysis.ok sDoc, Analysis.ok rDoc], ∀ c, fsRead wFS a.path = some c →
        ∀ om ∈ buildMoveMap [Analysis.ok sDoc],
          ((findBrokenRefs wFS [Analysis.ok sDoc]
              [Analysis.ok sDoc, Analysis.ok rDoc]).filter
              (fun e => e.file = a.path ∧ e.old_ref = om.1)).length
            = if isSubOf (basenameS om.1) c || isSubOf om.1 c then 1 else 0) ∧
      (∀ plan : MigrationPlan,
        buildMigrationPlan wFS [Analysis.ok sDoc, Analysis.ok rDoc] = .ok plan →
        plan.broken_refs
          = findBrokenRefs wFS (plan.auto_moves ++ plan.suggested_moves)
              [Analysis.ok sDoc, Analysis.ok rDoc])) :=
  ⟨by decide,
    c7_reference_scanner wFS [Analysis.ok sDoc] [Analysis.ok sDoc, Analysis.ok rDoc]
      (by decide)⟩

theorem executeMovesGo_auto_no_crash (respond : Str → Char)
    (moveFails : Str → Str → Bool) :
    ∀ (moves : List Analysis) (st : ExecSt),
    (∀ m ∈ moves, ∃ dd, m = Analysis.ok dd) →
    (executeMovesGo respond moveFails true moves st).crashed = st.crashed := by
  intro moves
  induction moves with
  | nil => intro st _; rfl
  | cons m rest ih =>
    intro st hall
    obtain ⟨dd, rfl⟩ := hall m (List.mem_cons_self _ _)
    have hrest : ∀ m ∈ rest, ∃ dd, m = Analysis.ok dd :=
      fun m hm => hall m (List.mem_cons_of_mem _ hm)
    cases hcp : dd.correct_path with
    | none => simp [executeMovesGo, hcp, ih _ hrest]
    | some dst =>
      cases hfs : fsRead st.fs dd.path with
      | none => simp [executeMovesGo, hcp, hfs, ih _ hrest]
      | some c =>
        by_cases hmf : moveFails dd.path dst = true <;>
          simp [executeMovesGo, hcp, hfs, hmf, ih _ hrest]

/-- C8: a failing individual move in automatic mode is caught and logged
with the offending path, and the loop continues with the remaining items
from an otherwise unchanged state (no retry); a succeeding move is
applied and the loop continues from the updated state (already-applied
moves are not rolled back); and with full analysis records no exception
escapes the loop, so every remaining item is attempted. -/
theorem c8_move_failure_isolated (respond : Str → Char)
    (moveFails : Str → Str → Bool) (d : DocAnalysis) (dst : Str)
    (rest : List Analysis) (st : ExecSt) (hdst : d.correct_path = some dst) :
    ((fsRead st.fs d.path = none ∨ moveFails d.path dst = true) →
      executeMovesGo respond moveFails true (Analysis.ok d :: rest) st
        = executeMovesGo respond moveFails true rest
            { st with stats := logMoveFail st.stats d.path }) ∧
    (∀ c, fsRead st.fs d.path = some c → moveFails d.path dst = false →
      executeMovesGo respond moveFails true (Analysis.ok d :: rest) st
        = executeMovesGo respond moveFails true rest
            { st with
              fs := fsWrite (fsErase st.fs d.path) dst c
              stats := applyMoveStats st.stats d.path dst }) ∧
    ((∀ m ∈ Analysis.ok d :: rest, ∃ dd, m = Analysis.ok dd) →
      (executeMovesGo respond moveFails true (Analysis.ok d :: rest) st).crashed
        = st.crashed) := by
  refine ⟨?_, ?_, executeMovesGo_auto_no_crash respond moveFails _ st⟩
  · intro hfail
    cases hfs : fsRead st.fs d.path with
    | none => simp [executeMovesGo, hdst, hfs]
    | some c =>
      rcases hfail with hfail | hfail
      · rw [hfs] at hfail; cases hfail
      · simp [executeMovesGo, hdst, hfs, hfail]
  · intro c hfs hmf
    simp [executeMovesGo, hdst, hfs, hmf]

/-- Witness for C8: the first of two planned moves fails by an injected
move error; the executor logs the offending path and continues with the
second item from the unchanged filesystem. -/
theorem c8_move_failure_isolated_witness :
    sDoc.correct_path = some "/p/d/bee.md".data ∧
    (fsRead (ExecSt.mk wFS stats0 false).fs sDoc.path = none ∨
      wMoveFails sDoc.path "/p/d/bee.md".data = true) ∧
    executeMovesGo wRespond wMoveFails true
        (Analysis.ok sDoc :: [Analysis.ok wDoc90]) (ExecSt.mk wFS stats0 false)
      = executeMovesGo wRespond wMoveFails true [Analysis.ok wDoc90]
          { ExecSt.mk wFS stats0 false with
            stats := logMoveFail (ExecSt.mk wFS stats0 false).stats sDoc.path } :=
  ⟨by decide, by decide,
    (c8_move_failure_isolated wRespond wMoveFails sDoc "/p/d/bee.md".data
      [Analysis.ok wDoc90] (ExecSt.mk wFS stats0 false) (by decide)).1 (by decide)⟩

/-- Counterexample to C3: with the `--auto` mode, a plan whose suggested
bucket holds one move completes its run without executing that move —
the document stays at its original path, the planned destination is
never created, and the moved counter stays at zero. -/
theorem c3_counterexample :
    (executeMigration "/p".data "TS".data false (fun _ => 'y') (fun _ => false)
        (fun _ _ => false) "auto".data ⟨[], [Analysis.ok sDoc], [], [], []⟩ wFS
        stats0).outcome = .completed ∧
    fsRead (executeMigration "/p".data "TS".data false (fun _ => 'y')
        (fun _ => false) (fun _ _ => false) "auto".data
        ⟨[], [Analysis.ok sDoc], [], [], []⟩ wFS stats0).fs "/p/b.md".data
      = some "x".data ∧
    fsRead (executeMigration "/p".data "TS".data false (fun _ => 'y')
        (fun _ => false) (fun _ _ => false) "auto".data
        ⟨[], [Analysis.ok sDoc], [], [], []⟩ wFS stats0).fs "/p/d/bee.md".data
      = none ∧
    (executeMigration "/p".data "TS".data false (fun _ => 'y') (fun _ => false)
        (fun _ _ => false) "auto".data ⟨[], [Analysis.ok sDoc], [], [], []⟩ wFS
        stats0).stats.moved = 0 := by
  refine ⟨by decide, by decide, by decide, by decide⟩

theorem executeMovesGo_auto_respond (r r' : Str → Char)
    (mf : Str → Str → Bool) :
    ∀ (moves : List Analysis) (st : ExecSt),
    executeMovesGo r mf true moves st = executeMovesGo r' mf true moves st := by
  intro moves
  induction moves with
  | nil => intro st; rfl
  | cons m rest ih =>
    intro st
    cases m with
    | err p msg => rfl
    | ok d =>
      cases hcp : d.correct_path with
      | none => simp [executeMovesGo, hcp, ih]
      | some dst =>
        cases hfs : fsRead st.fs d.path with
        | none => simp [executeMovesGo, hcp, hfs, ih]
        | some c =>
          by_cases hmf : mf d.path dst = true <;>
            simp [executeMovesGo, hcp, hfs, hmf, ih]

theorem migrationMoves_auto (r : Str → Char) (mf : Str → Str → Bool)
    (plan : MigrationPlan) (st : ExecSt) :
    migrationMoves r mf "auto".data plan st
      = executeMovesGo r mf true plan.auto_moves st := by
  unfold migrationMoves
  simp

/-- C3 as amended: with mode `'auto'` the confirmation gate and the
per-item prompts are never consulted (the run result does not depend on
either oracle), and the move phase executes exactly the auto bucket in
automatic per-item mode; the suggested bucket is not executed at all. -/
theorem c3_amended (root ts : Str) (ca ca' : Bool) (r r' : Str → Char)
    (cf : Str → Bool) (mf : Str → Str → Bool) (plan : MigrationPlan)
    (fs : FS) (stats : Stats) :
    executeMigration root ts ca r cf mf "auto".data plan fs stats
      = executeMigration root ts ca' r' cf mf "auto".data plan fs stats ∧
    (∀ st : ExecSt, migrationMoves r mf "auto".data plan st
      = executeMovesGo r mf true plan.auto_moves st) := by
  constructor
  · unfold executeMigration
    rw [if_pos (Or.inl rfl), if_pos (Or.inl rfl)]
    have hmm : migrationMoves r mf "auto".data plan
        = migrationMoves r' mf "auto".data plan := by
      funext st
      rw [migrationMoves_auto, migrationMoves_auto]
      exact executeMovesGo_auto_respond r r' mf plan.auto_moves st
    rw [hmm]
  · intro st
    exact migrationMoves_auto r mf plan st

theorem fsRead_fsWrite_self (fs : FS) (p c : Str) :
    fsRead (fsWrite fs p c) p = some c := by
  simp [fsRead, fsWrite]

theorem fsRead_fsWrite_ne (fs : FS) (p q c : Str) (h : q ≠ p) :
    fsRead (fsWrite fs p c) q = fsRead fs q := by
  simp [fsRead, fsWrite, h]

theorem createBackupGo_preserves (root ts : Str) (cf : Str → Bool) :
    ∀ (items : List Analysis) (fs : FS) (q : Str),
    (∀ b ∈ items, q ≠ backupDst root ts b.path) →
    fsRead (createBackupGo root ts cf items fs).1 q = fsRead fs q := by
  intro items
  induction items with
  | nil => intro fs q _; rfl
  | cons a rest ih =>
    intro fs q h
    unfold createBackupGo
    cases hr : fsRead fs a.path with
    | none => rfl
    | some c =>
      dsimp only
      by_cases hcf : cf (backupDst root ts a.path) = true
      · rw [if_pos hcf]
      · rw [if_neg hcf]
        rw [ih (fsWrite fs (backupDst root ts a.path) c) q
          (fun b hb => h b (List.mem_cons_of_mem _ hb))]
        exact fsRead_fsWrite_ne fs _ q c (h a (List.mem_cons_self _ _))

theorem createBackupGo_flag (root ts : Str) (cf : Str → Bool)
    (a : Analysis) (rest : List Analysis) (fs : FS) (c : Str)
    (hr : fsRead fs a.path = some c)
    (hcf : cf (backupDst root ts a.path) = false) :
    createBackupGo root ts cf (a :: rest) fs
      = createBackupGo root ts cf rest
          (fsWrite fs (backupDst root ts a.path) c) := by
  conv_lhs => unfold createBackupGo
  rw [hr]
  dsimp only
  rw [if_neg (by simp [hcf])]

theorem createBackupGo_complete (root ts : Str) (cf : Str → Bool) :
    ∀ (items : List Analysis) (fs : FS),
    (items.map Analysis.path).Nodup →
    (∀ a ∈ items, ∀ b ∈ items, a.path ≠ backupDst root ts b.path) →
    (∀ a ∈ items, ∀ b ∈ items,
      relpathS root a.path = relpathS root b.path → a.path = b.path) →
    (createBackupGo root ts cf items fs).2 = true →
    ∀ x ∈ items,
      fsRead (createBackupGo root ts cf items fs).1 (backupDst root ts x.path)
        = fsRead fs x.path := by
  intro items
  induction items with
  | nil => intro fs _ _ _ _ x hx; cases hx
  | cons a rest ih =>
    intro fs hnd hsep hinj hflag x hx
    rw [List.map_cons] at hnd
    have hnd1 := (List.nodup_cons.mp hnd).1
    have hnd2 := (List.nodup_cons.mp hnd).2
    cases hr : fsRead fs a.path with
    | none =>
      exfalso
      unfold createBackupGo at hflag
      rw [hr] at hflag
      cases hflag
    | some c =>
      by_cases hcf : cf (backupDst root ts a.path) = true
      · exfalso
        unfold createBackupGo at hflag
        rw [hr] at hflag
        dsimp only at hflag
        rw [if_pos (by simp [hcf])] at hflag
        cases hflag
      · have hstep := createBackupGo_flag root ts cf a rest fs c hr
          (by revert hcf; cases cf (backupDst root ts a.path) <;> simp)
        rw [hstep] at hflag ⊢
        rcases List.mem_cons.mp hx with rfl | hx'
        · rw [createBackupGo_preserves root ts cf rest _ _ ?hq]
          · rw [fsRead_fsWrite_self, hr]
          case hq =>
            intro b hb hEq
            have hrel := hinj x (List.mem_cons_self _ _) b
              (List.mem_cons_of_mem _ hb) ?_
            · exact hnd1 (hrel ▸ List.mem_map_of_mem _ hb)
            · have := congrArg (fun s => s.drop (backupDirOf root ts).length) hEq
              simpa [backupDst, joinS] using this
        · rw [ih _ hnd2
            (fun p hp q hq => hsep p (List.mem_cons_of_mem _ hp) q
              (List.mem_cons_of_mem _ hq))
            (fun p hp q hq => hinj p (List.mem_cons_of_mem _ hp) q
              (List.mem_cons_of_mem _ hq))
            hflag x hx']
          exact fsRead_fsWrite_ne fs _ _ c
            (hsep x (List.mem_cons_of_mem _ hx') a (List.mem_cons_self _ _))

/-- C2: once the run is past its confirmation gate, the backup loop runs
before any move; if copying any one auto- or suggested-bucket document
fails, the exception escapes `execute_migration` (outcome `uncaughtErr`)
and every planned document is still unchanged at its pre-move path — no
move is attempted; if the backup completes, it holds a byte-identical
copy of every auto- and suggested-bucket document at its pre-move path
relative to the project root under the timestamped backup directory. -/
theorem c2_backup_before_moves (root ts : Str) (ca : Bool) (r : Str → Char)
    (cf : Str → Bool) (mf : Str → Str → Bool) (mode : Str)
    (plan : MigrationPlan) (fs : FS) (stats : Stats)
    (hgate : mode = "auto".data ∨ confirmMigration plan ca = true)
    (hsep : ∀ a ∈ plan.auto_moves ++ plan.suggested_moves,
      ∀ b ∈ plan.auto_moves ++ plan.suggested_moves,
      a.path ≠ backupDst root ts b.path)
    (hnd : ((plan.auto_moves ++ plan.suggested_moves).map Analysis.path).Nodup)
    (hinj : ∀ a ∈ plan.auto_moves ++ plan.suggested_moves,
      ∀ b ∈ plan.auto_moves ++ plan.suggested_moves,
      relpathS root a.path = relpathS root b.path → a.path = b.path) :
    ((createBackupGo root ts cf (plan.auto_moves ++ plan.suggested_moves) fs).2
        = false →
      executeMigration root ts ca r cf mf mode plan fs stats
        = ⟨(createBackupGo root ts cf
              (plan.auto_moves ++ plan.suggested_moves) fs).1,
           stats, .uncaughtErr⟩ ∧
      ∀ a ∈ plan.auto_moves ++ plan.suggested_moves,
        fsRead (executeMigration root ts ca r cf mf mode plan fs stats).fs a.path
          = fsRead fs a.path) ∧
    ((createBackupGo root ts cf (plan.auto_moves ++ plan.suggested_moves) fs).2
        = true →
      ∀ a ∈ plan.auto_moves ++ plan.suggested_moves,
        fsRead (createBackupGo root ts cf
            (plan.auto_moves ++ plan.suggested_moves) fs).1
            (backupDst root ts a.path)
          = fsRead fs a.path) := by
  constructor
  · intro hfail
    have hrun : executeMigration root ts ca r cf mf mode plan fs stats
        = ⟨(createBackupGo root ts cf
              (plan.auto_moves ++ plan.suggested_moves) fs).1,
           stats, .uncaughtErr⟩ := by
      unfold executeMigration
      rw [if_pos hgate]
      dsimp only
      rw [if_pos hfail]
    refine ⟨hrun, ?_⟩
    intro a ha
    rw [hrun]
    exact createBackupGo_preserves root ts cf _ fs a.path
      (fun b hb => hsep a ha b hb)
  · intro hok
    exact createBackupGo_complete root ts cf _ fs hnd hsep hinj hok

/-- Witness for C2: a failing backup copy aborts the concrete run with an
uncaught error, leaving the suggested document untouched. -/
theorem c2_backup_before_moves_witness :
    ("auto".data = "auto".data ∨
      confirmMigration ⟨[], [Analysis.ok sDoc], [], [], []⟩ true = true) ∧
    (∀ a ∈ ([] : List Analysis) ++ [Analysis.ok sDoc],
      ∀ b ∈ ([] : List Analysis) ++ [Analysis.ok sDoc],
      a.path ≠ backupDst "/p".data "TS".data b.path) ∧
    ((([] : List Analysis) ++ [Analysis.ok sDoc]).map Analysis.path).Nodup ∧
    (∀ a ∈ ([] : List Analysis) ++ [Analysis.ok sDoc],
      ∀ b ∈ ([] : List Analysis) ++ [Analysis.ok sDoc],
      relpathS "/p".data a.path = relpathS "/p".data b.path → a.path = b.path) ∧
    (createBackupGo "/p".data "TS".data (fun _ => true)
        (([] : List Analysis) ++ [Analysis.ok sDoc]) wFS).2 = false ∧
    (executeMigration "/p".data "TS".data true wRespond (fun _ => true)
        (fun _ _ => false) "auto".data ⟨[], [Analysis.ok sDoc], [], [], []⟩ wFS
        stats0
      = ⟨(createBackupGo "/p".data "TS".data (fun _ => true)
            (([] : List Analysis) ++ [Analysis.ok sDoc]) wFS).1,
         stats0, .uncaughtErr⟩ ∧
      ∀ a ∈ ([] : List Analysis) ++ [Analysis.ok sDoc],
        fsRead (executeMigration "/p".data "TS".data true wRespond
            (fun _ => true) (fun _ _ => false) "auto".data
            ⟨[], [Analysis.ok sDoc], [], [], []⟩ wFS stats0).fs a.path
          = fsRead wFS a.path) :=
  ⟨Or.inl rfl, by decide, by decide, by decide, by decide,
    (c2_backup_before_moves "/p".data "TS".data true wRespond (fun _ => true)
      (fun _ _ => false) "auto".data ⟨[], [Analysis.ok sDoc], [], [], []⟩ wFS
      stats0 (Or.inl rfl) (by decide) (by decide) (by decide)).1 (by decide)⟩

/-- Counterexample to C4: in the concrete interactive run the user skips
the only suggested move (answer 'n'), so the document never moves, yet the
reference rewriter still rewrites the referencing file to the new
basename — an edit whose underlying move was skipped is rewritten. -/
theorem c4_counterexample :
    (executeMigration "/p".data "TS".data true (fun _ => 'n') (fun _ => false)
        (fun _ _ => false) "interactive".data
        ⟨[], [Analysis.ok sDoc], [], [], [rEdit]⟩ wFS stats0).outcome
      = .completed ∧
    fsRead (executeMigration "/p".data "TS".data true (fun _ => 'n')
        (fun _ => false) (fun _ _ => false) "interactive".data
        ⟨[], [Analysis.ok sDoc], [], [], [rEdit]⟩ wFS stats0).fs "/p/b.md".data
      = some "x".data ∧
    (executeMigration "/p".data "TS".data true (fun _ => 'n') (fun _ => false)
        (fun _ _ => false) "interactive".data
        ⟨[], [Analysis.ok sDoc], [], [], [rEdit]⟩ wFS stats0).stats.moved = 0 ∧
    fsRead (executeMigration "/p".data "TS".data true (fun _ => 'n')
        (fun _ => false) (fun _ _ => false) "interactive".data
        ⟨[], [Analysis.ok sDoc], [], [], [rEdit]⟩ wFS stats0).fs "/p/r.md".data
      = some "see bee.md here".data := by
  refine ⟨by decide, by decide, by decide, by decide⟩

/-- C4 as amended: reference rewriting runs in a fixed phase after the
move phase, but each `ReferenceEdit` is applied based only on the old
basename still occurring in the referencing file's content — independent
of whether the corresponding move was applied: a run whose only suggested
move is skipped by the user still rewrites the referencing file and bumps
the reference counter, while the skipped document stays at its original
path and the moved counter is unchanged. -/
theorem c4_amended (root ts mode : Str) (ca : Bool) (r : Str → Char)
    (cf : Str → Bool) (mf : Str → Str → Bool) (s : DocAnalysis) (dstS : Str)
    (e : RefEdit) (man : List Analysis) (dups : List DupGroup) (fs : FS)
    (stats : Stats) (cS cR np : Str)
    (hmode : mode ≠ "auto".data) (hca : ca = true) (hresp : r s.path = 'n')
    (hdst : s.correct_path = some dstS) (hcs : fsRead fs s.path = some cS)
    (hcr : fsRead fs e.file = some cR) (hnp : e.new_ref = some np)
    (hhit : isSubOf (basenameS e.old_ref) cR = true)
    (hsep1 : s.path ≠ backupDst root ts s.path)
    (hsep2 : e.file ≠ backupDst root ts s.path) (hne : s.path ≠ e.file)
    (hcf : cf (backupDst root ts s.path) = false) :
    (executeMigration root ts ca r cf mf mode
        ⟨[], [Analysis.ok s], man, dups, [e]⟩ fs stats).outcome = .completed ∧
    fsRead (executeMigration root ts ca r cf mf mode
        ⟨[], [Analysis.ok s], man, dups, [e]⟩ fs stats).fs s.path = some cS ∧
    (executeMigration root ts ca r cf mf mode
        ⟨[], [Analysis.ok s], man, dups, [e]⟩ fs stats).stats.moved
      = stats.moved ∧
    fsRead (executeMigration root ts ca r cf mf mode
        ⟨[], [Analysis.ok s], man, dups, [e]⟩ fs stats).fs e.file
      = some (replaceAll (basenameS e.old_ref) (basenameS np) cR) ∧
    (executeMigration root ts ca r cf mf mode
        ⟨[], [Analysis.ok s], man, dups, [e]⟩ fs stats).stats.references_updated
      = stats.references_updated + 1 := by
  have hgate : mode = "auto".data ∨
      confirmMigration ⟨[], [Analysis.ok s], man, dups, [e]⟩ ca = true :=
    Or.inr (by simp [confirmMigration, hca])
  have hbk : createBackupGo root ts cf
      (([] : List Analysis) ++ [Analysis.ok s]) fs
      = (fsWrite fs (backupDst root ts s.path) cS, true) := by
    rw [List.nil_append,
      createBackupGo_flag root ts cf (Analysis.ok s) [] fs cS hcs hcf]
    rfl
  have hskip : ∀ st : ExecSt, executeMovesGo r mf false [Analysis.ok s] st = st := by
    intro st
    unfold executeMovesGo
    dsimp only
    rw [hdst]
    dsimp only
    rw [if_neg (by simp [hresp]), if_pos ⟨rfl, by simp [hresp]⟩]
    rfl
  have hmm : migrationMoves r mf mode ⟨[], [Analysis.ok s], man, dups, [e]⟩
      ⟨fsWrite fs (backupDst root ts s.path) cS, stats, false⟩
      = ⟨fsWrite fs (backupDst root ts s.path) cS, stats, false⟩ := by
    have hnil : ∀ st : ExecSt, executeMovesGo r mf true ([] : List Analysis) st = st :=
      fun _ => rfl
    unfold migrationMoves
    dsimp only
    rw [hnil]
    rw [if_neg (by simp), if_pos hmode, hskip]
  have hread1 : fsRead (fsWrite fs (backupDst root ts s.path) cS) e.file
      = some cR := by
    rw [fsRead_fsWrite_ne _ _ _ _ hsep2]
    exact hcr
  have hupd : updateReferencesGo [e]
      ⟨fsWrite fs (backupDst root ts s.path) cS, stats, false⟩
      = ⟨fsWrite (fsWrite fs (backupDst root ts s.path) cS) e.file
           (replaceAll (basenameS e.old_ref) (basenameS np) cR),
         { stats with references_updated := stats.references_updated + 1 },
         false⟩ := by
    unfold updateReferencesGo
    rw [hread1]
    dsimp only
    rw [hnp]
    dsimp only
    rw [if_pos hhit]
    rfl
  have hrun : executeMigration root ts ca r cf mf mode
      ⟨[], [Analysis.ok s], man, dups, [e]⟩ fs stats
      = ⟨fsWrite (fsWrite fs (backupDst root ts s.path) cS) e.file
           (replaceAll (basenameS e.old_ref) (basenameS np) cR),
         { stats with references_updated := stats.references_updated + 1 },
         .completed⟩ := by
    unfold executeMigration
    rw [if_pos hgate]
    dsimp only
    rw [hbk]
    dsimp only
    rw [hmm]
    dsimp only
    rw [hupd]
    rfl
  rw [hrun]
  refine ⟨rfl, ?_, rfl, ?_, rfl⟩
  · rw [fsRead_fsWrite_ne _ _ _ _ hne, fsRead_fsWrite_ne _ _ _ _ hsep1]
    exact hcs
  · exact fsRead_fsWrite_self _ _ _

/-- Witness for the amended C4 at the concrete skipped-move scenario. -/
theorem c4_amended_witness :
    "interactive".data ≠ "auto".data ∧
    (true : Bool) = true ∧
    (fun _ : Str => 'n') sDoc.path = 'n' ∧
    sDoc.correct_path = some "/p/d/bee.md".data ∧
    fsRead wFS sDoc.path = some "x".data ∧
    fsRead wFS rEdit.file = some "see b.md here".data ∧
    rEdit.new_ref = some "/p/d/bee.md".data ∧
    isSubOf (basenameS rEdit.old_ref) "see b.md here".data = true ∧
    sDoc.path ≠ backupDst "/p".data "TS".data sDoc.path ∧
    rEdit.file ≠ backupDst "/p".data "TS".data sDoc.path ∧
    sDoc.path ≠ rEdit.file ∧
    (fun _ : Str => false) (backupDst "/p".data "TS".data sDoc.path) = false ∧
    ((executeMigration "/p".data "TS".data true (fun _ => 'n') (fun _ => false)
        (fun _ _ => false) "interactive".data
        ⟨[], [Analysis.ok sDoc], [], [], [rEdit]⟩ wFS stats0).outcome
        = .completed ∧
      fsRead (executeMigration "/p".data "TS".data true (fun _ => 'n')
          (fun _ => false) (fun _ _ => false) "interactive".data
          ⟨[], [Analysis.ok sDoc], [], [], [rEdit]⟩ wFS stats0).fs sDoc.path
        = some "x".data ∧
      (executeMigration "/p".data "TS".data true (fun _ => 'n') (fun _ => false)
          (fun _ _ => false) "interactive".data
          ⟨[], [Analysis.ok sDoc], [], [], [rEdit]⟩ wFS stats0).stats.moved
        = stats0.moved ∧
      fsRead (executeMigration "/p".data "TS".data true (fun _ => 'n')
          (fun _ => false) (fun _ _ => false) "interactive".data
          ⟨[], [Analysis.ok sDoc], [], [], [rEdit]⟩ wFS stats0).fs rEdit.file
        = some (replaceAll (basenameS rEdit.old_ref)
            (basenameS "/p/d/bee.md".data) "see b.md here".data) ∧
      (executeMigration "/p".data "TS".data true (fun _ => 'n') (fun _ => false)
          (fun _ _ => false) "interactive".data
          ⟨[], [Analysis.ok sDoc], [], [], [rEdit]⟩ wFS
          stats0).stats.references_updated
        = stats0.references_updated + 1) :=
  ⟨by decide, rfl, rfl, by decide, by decide, by decide, by decide, by decide,
    by decide, by decide, by decide, rfl,
    c4_amended "/p".data "TS".data "interactive".data true (fun _ => 'n')
      (fun _ => false) (fun _ _ => false) sDoc "/p/d/bee.md".data rEdit [] []
      wFS stats0 "x".data "see b.md here".data "/p/d/bee.md".data
      (by decide) rfl rfl (by decide) (by decide) (by decide) (by decide)
      (by decide) (by decide) (by decide) (by decide) rfl⟩
